import Mathlib

/-
Verification of the SWV gain-analysis core of the BiosensumPipeline
repository (src/utils.py), as a shallow embedding in Lean 4.

Numeric values carried by a trace are modeled as exact rationals.  Results
of the numpy arithmetic inside calculate_current_difference are modeled by
the type PyFloat, which extends the rationals with the three non-finite
IEEE values (positive infinity, negative infinity, NaN) that numpy float64
arithmetic produces on division by zero; this is needed because the source
performs an unguarded division at utils.py line 267.
-/

/-- Model of a numpy float64 value: a finite rational, one of the two
infinities, or NaN.  Exact rational arithmetic stands in for rounded
binary64 arithmetic; the claims under study concern only the algebraic
shape and sign of results, which rounding does not affect. -/
inductive PyFloat where
  | fin : ℚ → PyFloat
  | pinf : PyFloat
  | ninf : PyFloat
  | nan : PyFloat
deriving DecidableEq

/-- IEEE negation. -/
def pyNeg : PyFloat → PyFloat
  | .fin a => .fin (-a)
  | .pinf => .ninf
  | .ninf => .pinf
  | .nan => .nan

/-- IEEE addition on the model (numpy float64 semantics: NaN propagates,
opposite infinities give NaN). -/
def pyAdd : PyFloat → PyFloat → PyFloat
  | .nan, _ => .nan
  | _, .nan => .nan
  | .fin a, .fin b => .fin (a + b)
  | .fin _, .pinf => .pinf
  | .fin _, .ninf => .ninf
  | .pinf, .fin _ => .pinf
  | .ninf, .fin _ => .ninf
  | .pinf, .pinf => .pinf
  | .ninf, .ninf => .ninf
  | .pinf, .ninf => .nan
  | .ninf, .pinf => .nan

/-- IEEE subtraction, defined as addition of the negation (exact for
float64). -/
def pySub (x y : PyFloat) : PyFloat := pyAdd x (pyNeg y)

/-- IEEE multiplication (infinity times zero gives NaN). -/
def pyMul : PyFloat → PyFloat → PyFloat
  | .nan, _ => .nan
  | _, .nan => .nan
  | .fin a, .fin b => .fin (a * b)
  | .fin a, .pinf => if 0 < a then .pinf else if a < 0 then .ninf else .nan
  | .fin a, .ninf => if 0 < a then .ninf else if a < 0 then .pinf else .nan
  | .pinf, .fin b => if 0 < b then .pinf else if b < 0 then .ninf else .nan
  | .ninf, .fin b => if 0 < b then .ninf else if b < 0 then .pinf else .nan
  | .pinf, .pinf => .pinf
  | .pinf, .ninf => .ninf
  | .ninf, .pinf => .ninf
  | .ninf, .ninf => .pinf

/-- IEEE division.  Finite over zero yields a signed infinity, or NaN for
zero over zero — exactly what numpy float64 does (with a RuntimeWarning)
at utils.py line 267 when the two maxima share a potential.  The rational
model has no signed zero, so the sign of an infinite quotient over zero
uses the plain ordering of the denominator; the claims never touch those
branches. -/
def pyDiv : PyFloat → PyFloat → PyFloat
  | .nan, _ => .nan
  | _, .nan => .nan
  | .fin a, .fin b =>
      if b = 0 then (if 0 < a then .pinf else if a < 0 then .ninf else .nan)
      else .fin (a / b)
  | .fin _, .pinf => .fin 0
  | .fin _, .ninf => .fin 0
  | .pinf, .fin b => if 0 ≤ b then .pinf else .ninf
  | .ninf, .fin b => if 0 ≤ b then .ninf else .pinf
  | .pinf, _ => .nan
  | .ninf, _ => .nan

/-- Finiteness test: true exactly on the rational (non-NaN, non-infinite)
values. -/
def PyFloat.isFinite : PyFloat → Bool
  | .fin _ => true
  | _ => false

/-- A voltammetry trace: the cleaned dataframe of (Potential, Current)
sample pairs.  The dataframe handed to the analysis functions has already
passed clean_data (utils.py line 90, dropna), so every stored value is an
actual number; the redundant dropna at utils.py line 252 is therefore the
identity on this representation. -/
structure Trace where
  samples : List (ℚ × ℚ)

/-- Column df.Potential as an array (utils.py line 254). -/
def Trace.potential (df : Trace) : List ℚ := df.samples.map Prod.fst

/-- Column df.Current as an array (utils.py line 255). -/
def Trace.current (df : Trace) : List ℚ := df.samples.map Prod.snd

/-- Scalar read potential[i] (indices used by the pipeline are in bounds;
out-of-bounds reads, which would raise IndexError in Python, are given the
junk value 0 and excluded by bounds hypotheses in the theorems). -/
def Trace.potAt (df : Trace) (i : Nat) : ℚ := (Trace.potential df).getD i 0

/-- Scalar read current[i]. -/
def Trace.curAt (df : Trace) (i : Nat) : ℚ := (Trace.current df).getD i 0

/-- Embedding of calculate_current_difference (utils.py lines 238-276)
for integer indices: extracts the three sample points, fits the line
through the two maxima, and returns the observed current at the minimum
minus the current projected by that line, all in float64 arithmetic. -/
def calculate_current_difference (df : Trace)
    (min_index max_index1 max_index2 : Nat) : PyFloat :=
  let min_potential := PyFloat.fin (df.potAt min_index)
  let min_current := PyFloat.fin (df.curAt min_index)
  let max1_potential := PyFloat.fin (df.potAt max_index1)
  let max1_current := PyFloat.fin (df.curAt max_index1)
  let max2_potential := PyFloat.fin (df.potAt max_index2)
  let max2_current := PyFloat.fin (df.curAt max_index2)
  let m := pyDiv (pySub max2_current max1_current)
                 (pySub max2_potential max1_potential)
  let c := pySub max1_current (pyMul m max1_potential)
  let projected_current := pyAdd (pyMul m min_potential) c
  pySub min_current projected_current

/-- Result of the Python function when called through main.py: a scalar
float in the normal case, or — because numpy treats an integer index of
None as a new-axis selection rather than an error — a whole array of
floats when a bracket index is None. -/
inductive PyResult where
  | scalar : PyFloat → PyResult
  | vector : List PyFloat → PyResult
deriving DecidableEq

/-- Embedding of calculate_current_difference as invoked by main.py line
27, where either maxima argument may be the None returned by
find_nearest_maxima.  numpy evaluates arr[None] as arr reshaped to
(1, n), so every arithmetic step broadcasts: entry j of the result uses
sample j wherever the index was None, and the fixed sample wherever the
index was an integer.  No exception is raised on a None index. -/
def calculate_current_difference_opt (df : Trace) (min_index : Nat)
    (omax1 omax2 : Option Nat) : PyResult :=
  match omax1, omax2 with
  | some i, some j => PyResult.scalar (calculate_current_difference df min_index i j)
  | _, _ =>
      PyResult.vector ((List.range df.samples.length).map fun j =>
        calculate_current_difference df min_index (omax1.getD j) (omax2.getD j))

/-- Rational slope of the line through samples j and k, mirroring utils.py
line 267 in exact arithmetic; used to state the gain formula. -/
def baselineSlope (df : Trace) (j k : Nat) : ℚ :=
  (df.curAt k - df.curAt j) / (df.potAt k - df.potAt j)

/-- Rational intercept of the maxima-connecting line, utils.py line 268. -/
def baselineIntercept (df : Trace) (j k : Nat) : ℚ :=
  df.curAt j - baselineSlope df j k * df.potAt j

/-- Rational current obtained by evaluating the maxima-connecting line at
the potential of sample i, utils.py line 271. -/
def projectedAt (df : Trace) (j k i : Nat) : ℚ :=
  baselineSlope df j k * df.potAt i + baselineIntercept df j k

/-- Concrete three-sample trace with a dip of depth 2 below two bumps of
height 1: samples (potential, current) = (0, 1), (1, -2), (2, 1). -/
def dfDip : Trace := ⟨[(0, 1), (1, -2), (2, 1)]⟩

/-- Concrete trace whose samples 1 and 2 share the same potential value:
(0, 5), (1, 1), (1, 3). -/
def dfEqPot : Trace := ⟨[(0, 5), (1, 1), (1, 3)]⟩

theorem pySub_fin (a b : ℚ) : pySub (.fin a) (.fin b) = .fin (a - b) := by
  simp [pySub, pyNeg, pyAdd, sub_eq_add_neg]

theorem pyMul_fin (a b : ℚ) : pyMul (.fin a) (.fin b) = .fin (a * b) := rfl

theorem pyAdd_fin (a b : ℚ) : pyAdd (.fin a) (.fin b) = .fin (a + b) := rfl

theorem pyDiv_fin {b : ℚ} (hb : b ≠ 0) (a : ℚ) :
    pyDiv (.fin a) (.fin b) = .fin (a / b) := by
  simp [pyDiv, hb]

theorem nonfin_pyMul {x : PyFloat} (hx : x.isFinite = false) (y : PyFloat) :
    (pyMul x y).isFinite = false := by
  cases x <;> simp [PyFloat.isFinite] at hx ⊢ <;> cases y <;>
    simp [pyMul, PyFloat.isFinite] <;> split_ifs <;> rfl

theorem nonfin_pySub_fin {y : PyFloat} (hy : y.isFinite = false) (a : ℚ) :
    (pySub (.fin a) y).isFinite = false := by
  cases y <;> simp [PyFloat.isFinite] at hy ⊢ <;>
    simp [pySub, pyNeg, pyAdd, PyFloat.isFinite]

theorem nonfin_pyAdd {x y : PyFloat} (hx : x.isFinite = false)
    (hy : y.isFinite = false) : (pyAdd x y).isFinite = false := by
  cases x <;> simp [PyFloat.isFinite] at hx ⊢ <;> cases y <;>
    simp [pyAdd, PyFloat.isFinite] at hy ⊢

theorem nonfin_pyDiv_zero (a : ℚ) :
    (pyDiv (.fin a) (.fin 0)).isFinite = false := by
  simp [pyDiv, PyFloat.isFinite]
  split_ifs <;> rfl

/-- C1, counterexample to the claim as stated: on the three-sample trace
dfDip the observed current at the minimum (sample 1, current -2) lies
strictly below the baseline through the two maxima (projected current 1),
yet calculate_current_difference returns -3, which is negative, not
positive.  The code computes observed minus projected, so a dip below the
baseline always yields a negative gain. -/
theorem scenario_dip_gain_negative :
    calculate_current_difference dfDip 1 0 2 = PyFloat.fin (-3) ∧
    dfDip.curAt 1 < projectedAt dfDip 0 2 1 ∧ (-3 : ℚ) < 0 := by
  refine ⟨by with_unfolding_all rfl, by with_unfolding_all decide, by norm_num⟩

/-- C1 (amended): for every trace and feature window with both bracketing
maxima present and distinct potentials, the gain returned by
calculate_current_difference equals observed_current_at_minimum minus the
current obtained by evaluating the line through the (potential, current)
points of the two maxima at the potential of the minimum, and whenever the
observed minimum current lies below that baseline the returned gain is
NEGATIVE (Scenario A, a dip of depth 2 below bumps of height 1, yields a
gain near -3, not +3). -/
theorem calculate_current_difference_formula (df : Trace) (i j k : Nat)
    (_hi : i < df.samples.length) (_hj : j < df.samples.length)
    (_hk : k < df.samples.length)
    (hpot : df.potAt j ≠ df.potAt k) :
    calculate_current_difference df i j k =
      PyFloat.fin (df.curAt i - projectedAt df j k i) ∧
    (df.curAt i < projectedAt df j k i →
      df.curAt i - projectedAt df j k i < 0) := by
  have hne : df.potAt k - df.potAt j ≠ 0 := sub_ne_zero.mpr (Ne.symm hpot)
  constructor
  · unfold calculate_current_difference
    simp only [pySub_fin, pyDiv_fin hne, pyMul_fin, pyAdd_fin]
    simp [projectedAt, baselineIntercept, baselineSlope]
  · intro h
    exact sub_neg.mpr h

/-- C1, witness: the amended theorem applied to the concrete dip trace
dfDip, whose minimum lies below the baseline, giving the gain -3 < 0. -/
theorem calculate_current_difference_formula_witness :
    calculate_current_difference dfDip 1 0 2 = PyFloat.fin (-3) ∧
    dfDip.curAt 1 - projectedAt dfDip 0 2 1 < 0 := by
  have h := calculate_current_difference_formula dfDip 1 0 2
    (by norm_num [dfDip]) (by norm_num [dfDip]) (by norm_num [dfDip])
    (by with_unfolding_all decide)
  exact ⟨h.1.trans (by with_unfolding_all rfl),
         h.2 (by with_unfolding_all decide)⟩

/-- C3, counterexample to the claim as stated: on the trace dfEqPot, whose
samples 1 and 2 share the potential value 1, calculate_current_difference
does not fail with any DegenerateBaseline error (no such error exists in
the code); it performs the float division by the zero potential difference
and returns the resulting NaN value. -/
theorem equal_potentials_returns_nan :
    calculate_current_difference dfEqPot 0 1 2 = PyFloat.nan ∧
    dfEqPot.potAt 1 = dfEqPot.potAt 2 := by
  exact ⟨by with_unfolding_all rfl, by with_unfolding_all rfl⟩

/-- C3 (amended): for every trace and pair of bracketing maxima indices
with equal potential values, calculate_current_difference performs the
division by the zero potential difference in float arithmetic and returns
a non-finite value (infinity or NaN); the code raises no DegenerateBaseline
error and no exception at all. -/
theorem equal_potentials_nonfinite (df : Trace) (i j k : Nat)
    (_hi : i < df.samples.length) (_hj : j < df.samples.length)
    (_hk : k < df.samples.length)
    (hpot : df.potAt j = df.potAt k) :
    (calculate_current_difference df i j k).isFinite = false := by
  have h0 : df.potAt k - df.potAt j = 0 := sub_eq_zero_of_eq hpot.symm
  unfold calculate_current_difference
  simp only [pySub_fin, h0]
  have hm := nonfin_pyDiv_zero (df.curAt k - df.curAt j)
  exact nonfin_pySub_fin
    (nonfin_pyAdd (nonfin_pyMul hm _) (nonfin_pySub_fin (nonfin_pyMul hm _) _)) _

/-- C3, witness: the amended theorem applied to the concrete trace with a
shared maxima potential. -/
theorem equal_potentials_nonfinite_witness :
    (calculate_current_difference dfEqPot 0 1 2).isFinite = false :=
  equal_potentials_nonfinite dfEqPot 0 1 2 (by norm_num [dfEqPot])
    (by norm_num [dfEqPot]) (by norm_num [dfEqPot])
    (by with_unfolding_all rfl)

/-- C4, counterexample to the claim as stated: called with a null first
bracket index (as main.py line 27 does whenever find_nearest_maxima found
no maximum before the minimum), calculate_current_difference does not fail
with any IncompleteBracket error; numpy treats the None index as a
new-axis selection and the function returns a whole array of values, here
the three per-sample differences for the trace dfDip. -/
theorem null_bracket_returns_vector :
    calculate_current_difference_opt dfDip 1 none (some 2) =
      PyResult.vector [PyFloat.fin (-3), PyFloat.fin 0, PyFloat.nan] := by
  with_unfolding_all rfl

/-- C4 (amended): for every trace and minimum index, if either bracket
index passed to calculate_current_difference is null, the function does
not fail; numpy new-axis indexing makes every arithmetic step broadcast
and the call returns an array with one entry per trace sample instead of
a scalar gain. -/
theorem null_bracket_broadcasts (df : Trace) (min_index : Nat)
    (omax1 omax2 : Option Nat) (h : omax1 = none ∨ omax2 = none) :
    ∃ v, calculate_current_difference_opt df min_index omax1 omax2 =
      PyResult.vector v ∧ v.length = df.samples.length := by
  rcases omax1 with _ | i <;> rcases omax2 with _ | j
  · exact ⟨_, rfl, by simp⟩
  · exact ⟨_, rfl, by simp⟩
  · exact ⟨_, rfl, by simp⟩
  · rcases h with h | h <;> exact absurd h (by simp)

/-- C4, witness: the amended theorem applied with a null second bracket
index on the concrete trace dfDip. -/
theorem null_bracket_broadcasts_witness :
    ∃ v, calculate_current_difference_opt dfDip 0 (some 1) none =
      PyResult.vector v ∧ v.length = dfDip.samples.length :=
  null_bracket_broadcasts dfDip 0 (some 1) none (Or.inr rfl)

/-- Plateau scan of scipy _local_maxima_1d: starting at index i, advance
while the value equals v and the index stays below iMax; fuel bounds the
walk (callers pass enough fuel to cover the remaining range). -/
def scanAhead (x : Nat → ℚ) (v : ℚ) (iMax : Nat) : Nat → Nat → Nat
  | i, 0 => i
  | i, fuel + 1 => if i < iMax ∧ x i = v then scanAhead x v iMax (i + 1) fuel else i

/-- Main scan of scipy _local_maxima_1d: walks i from 1 to iMax - 1; a
sample strictly above its left neighbour opens a candidate plateau, which
is a local maximum when the sample after the plateau is strictly lower;
the recorded index is the plateau midpoint.  Fuel bounds the walk. -/
def lmLoop (x : Nat → ℚ) (iMax : Nat) : Nat → Nat → List Nat
  | _, 0 => []
  | i, fuel + 1 =>
    if i < iMax then
      if x (i - 1) < x i then
        let ia := scanAhead x (x i) iMax (i + 1) (iMax - i)
        if x ia < x i then ((i + (ia - 1)) / 2) :: lmLoop x iMax (ia + 1) fuel
        else lmLoop x iMax (i + 1) fuel
      else lmLoop x iMax (i + 1) fuel
    else []

/-- Leftward walk of scipy _peak_prominences: descend from the peak while
samples do not exceed the peak value, tracking the smallest sample seen. -/
def walkLeft (x : Nat → ℚ) (v : ℚ) : Nat → ℚ → ℚ
  | 0, acc => if x 0 ≤ v then min acc (x 0) else acc
  | i + 1, acc => if x (i + 1) ≤ v then walkLeft x v i (min acc (x (i + 1))) else acc

/-- Rightward walk of scipy _peak_prominences, bounded by iMax; fuel
bounds the walk. -/
def walkRight (x : Nat → ℚ) (v : ℚ) (iMax : Nat) : Nat → ℚ → Nat → ℚ
  | _, acc, 0 => acc
  | i, acc, fuel + 1 =>
    if i ≤ iMax ∧ x i ≤ v then walkRight x v iMax (i + 1) (min acc (x i)) fuel
    else acc

/-- Prominence of a peak per scipy peak_prominences with no window length:
peak height above the higher of the two lowest contour points found by the
two walks. -/
def peakProminence (x : Nat → ℚ) (iMax : Nat) (peak : Nat) : ℚ :=
  let leftMin := walkLeft x (x peak) peak (x peak)
  let rightMin := walkRight x (x peak) iMax peak (x peak) (iMax + 1)
  x peak - max leftMin rightMin

/-- Embedding of scipy.signal.find_peaks on a sequence with a scalar
prominence threshold: all inner local maxima whose prominence reaches the
threshold, in increasing index order. -/
def find_peaks (xs : List ℚ) (prominence : ℚ) : List Nat :=
  let x := fun i => xs.getD i 0
  let iMax := xs.length - 1
  (lmLoop x iMax 1 xs.length).filter
    (fun p => decide (prominence ≤ peakProminence x iMax p))

/-- Column lookup df[column] (utils.py line 141 and 143).  An unknown
column name raises a ValueError in the source, which the surrounding
except clause turns into a printed message and an empty result; none here
plays that role. -/
def getColumn (df : Trace) (column : String) : Option (List ℚ) :=
  if column = "Potential" then some (Trace.potential df)
  else if column = "Current" then some (Trace.current df)
  else none

/-- Embedding of filter_peak_by_prominence (utils.py lines 122-151): with
m = 1 the column is negated so that find_peaks locates minima, otherwise
maxima are searched directly; the peak list is returned only when it has
more than one entry, else the empty list. -/
def filter_peak_by_prominence (df : Trace) (column : String)
    (prominence : ℚ) (m : ℤ) : List Nat :=
  match getColumn df column with
  | none => []
  | some col =>
      let data := if m = 1 then col.map (fun q => -q) else col
      let peaks := find_peaks data prominence
      if peaks.length > 1 then peaks else []

/-- Loop guard of find_extreme_peaks (utils.py line 171): retry while the
filtered peak list is empty, or while it is a singleton during a
maxima search (m different from 1). -/
def fepCond (df : Trace) (column : String) (prominence : ℚ) (m : ℤ) : Bool :=
  let r := filter_peak_by_prominence df column prominence m
  r.length == 0 || (r.length == 1 && !(m == 1))

/-- Retry loop of find_extreme_peaks (utils.py lines 170-176), fuel being
the number of halvings still allowed before the iteration counter reaches
15: some result on success, none for the bare raise at the cap. -/
def fepGo (df : Trace) (column : String) (prominence : ℚ) (m : ℤ) :
    Nat → Option (List Nat)
  | 0 =>
      if fepCond df column prominence m then none
      else some (filter_peak_by_prominence df column prominence m)
  | fuel + 1 =>
      if fepCond df column prominence m then
        fepGo df column (prominence / 2) m fuel
      else some (filter_peak_by_prominence df column prominence m)

/-- Embedding of find_extreme_peaks (utils.py lines 155-180): run the
bounded halving loop; the exception raised at the cap is caught by the
except clause of the function itself, which prints a message and returns
the empty list. -/
def find_extreme_peaks (df : Trace) (column : String) (prominence : ℚ)
    (m : ℤ) : List Nat :=
  match fepGo df column prominence m 14 with
  | some r => r
  | none => []

/-- Loop guard written the way the spec describes the halting rule, with
no kind-dependent clause: retry exactly while the result is empty.  This
definition follows the words of the spec and exists to be compared with
fepCond for the refinement claim. -/
def fepCondUniform (df : Trace) (column : String) (prominence : ℚ)
    (m : ℤ) : Bool :=
  (filter_peak_by_prominence df column prominence m).length == 0

/-- Retry loop built on the uniform guard, for the refinement claim. -/
def fepGoUniform (df : Trace) (column : String) (prominence : ℚ) (m : ℤ) :
    Nat → Option (List Nat)
  | 0 =>
      if fepCondUniform df column prominence m then none
      else some (filter_peak_by_prominence df column prominence m)
  | fuel + 1 =>
      if fepCondUniform df column prominence m then
        fepGoUniform df column (prominence / 2) m fuel
      else some (filter_peak_by_prominence df column prominence m)

/-- Adaptive search built on the uniform guard, for the refinement
claim. -/
def find_extreme_peaks_uniform (df : Trace) (column : String)
    (prominence : ℚ) (m : ℤ) : List Nat :=
  match fepGoUniform df column prominence m 14 with
  | some r => r
  | none => []

/-- Concrete degenerate trace: five samples of constant current 3 over
potentials 0 to 4 — Scenario B of the spec. -/
def dfFlat : Trace := ⟨[(0, 3), (1, 3), (2, 3), (3, 3), (4, 3)]⟩

/-- Helper: the filtered peak list never has exactly one element, because
filter_peak_by_prominence discards any list of length up to one. -/
theorem filter_length_ne_one (df : Trace) (column : String)
    (prominence : ℚ) (m : ℤ) :
    (filter_peak_by_prominence df column prominence m).length ≠ 1 := by
  unfold filter_peak_by_prominence
  match getColumn df column with
  | none => simp
  | some col =>
      simp only
      split <;> split <;> simp_all <;> omega

/-- Helper: the guard of the halving loop agrees everywhere with the
uniform guard that only tests emptiness, because the singleton case the
extra clause looks for can never occur. -/
theorem fepCond_eq_uniform (df : Trace) (col : String) (prom : ℚ) (m : ℤ) :
    fepCond df col prom m = fepCondUniform df col prom m := by
  unfold fepCond fepCondUniform
  have h1 : ((filter_peak_by_prominence df col prom m).length == 1) = false :=
    beq_eq_false_iff_ne.mpr (filter_length_ne_one df col prom m)
  simp [h1]

/-- Helper: the two halving loops coincide for every fuel and starting
prominence. -/
theorem fepGo_eq_uniform (df : Trace) (col : String) (m : ℤ) :
    ∀ (fuel : Nat) (prom : ℚ),
    fepGo df col prom m fuel = fepGoUniform df col prom m fuel := by
  intro fuel
  induction fuel with
  | zero => intro prom; simp [fepGo, fepGoUniform, fepCond_eq_uniform]
  | succ fuel ih =>
      intro prom
      simp [fepGo, fepGoUniform, fepCond_eq_uniform, ih]

/-- Helper: complete unrolling of the halving loop — it either exhausts
its fuel and fails, or stops at some halving step k within the fuel bound
and returns exactly the filter result at prominence divided by 2 to the
k. -/
theorem fepGo_characterize (df : Trace) (col : String) (m : ℤ) :
    ∀ (fuel : Nat) (prom : ℚ),
    fepGo df col prom m fuel = none ∨
    ∃ k, k ≤ fuel ∧ fepGo df col prom m fuel =
      some (filter_peak_by_prominence df col (prom / 2 ^ k) m) := by
  intro fuel
  induction fuel with
  | zero =>
      intro prom
      by_cases h : fepCond df col prom m = true
      · left; simp [fepGo, h]
      · right; exact ⟨0, le_refl 0, by simp [fepGo, h]⟩
  | succ fuel ih =>
      intro prom
      by_cases h : fepCond df col prom m = true
      · have hstep : fepGo df col prom m (fuel + 1) =
            fepGo df col (prom / 2) m fuel := by
          simp [fepGo, h]
        rcases ih (prom / 2) with hnone | ⟨k, hk, heq⟩
        · left; rw [hstep, hnone]
        · right
          refine ⟨k + 1, by omega, ?_⟩
          rw [hstep, heq, div_div, ← pow_succ']
      · right; exact ⟨0, by omega, by simp [fepGo, h]⟩

/-- C5 (confirmed): for every input trace, column, prominence threshold
and peak kind, the filtered peak list is empty or has at least two
entries — never exactly one — and whenever find_peaks yields fewer than
two qualifying extrema the function returns the empty list rather than an
error or a singleton result. -/
theorem filter_never_singleton (df : Trace) (col : String) (prom : ℚ)
    (m : ℤ) :
    ((filter_peak_by_prominence df col prom m).length = 0 ∨
      2 ≤ (filter_peak_by_prominence df col prom m).length) ∧
    (∀ data, getColumn df col = some data →
      (find_peaks (if m = 1 then data.map (fun q => -q) else data)
          prom).length ≤ 1 →
      filter_peak_by_prominence df col prom m = []) := by
  constructor
  · have := filter_length_ne_one df col prom m; omega
  · intro data hcol hlen
    unfold filter_peak_by_prominence
    rw [hcol]
    simp only
    rw [if_neg (by omega)]

/-- C5, witness: on the flat five-sample trace no minimum qualifies, and
the filter indeed returns the empty list. -/
theorem filter_never_singleton_witness :
    filter_peak_by_prominence dfFlat "Current" (1 / 10) 1 = [] :=
  (filter_never_singleton dfFlat "Current" (1 / 10) 1).2
    (Trace.current dfFlat) (by with_unfolding_all rfl)
    (by with_unfolding_all decide)

/-- C6 (confirmed): for every trace, column, peak kind and nonnegative
initial prominence, the adaptive loop terminates after at most 15 guard
evaluations — it either gives up (the internal cap) or returns the filter
result at the prominence obtained after at most 14 halvings; one retry
step divides the prominence by exactly 2, and halving a nonnegative
prominence never increases it. -/
theorem find_extreme_peaks_bounded_halving (df : Trace) (col : String)
    (prom : ℚ) (m : ℤ) :
    (find_extreme_peaks df col prom m = [] ∨
      ∃ k, k ≤ 14 ∧ find_extreme_peaks df col prom m =
        filter_peak_by_prominence df col (prom / 2 ^ k) m) ∧
    (∀ fuel, fepCond df col prom m = true →
      fepGo df col prom m (fuel + 1) = fepGo df col (prom / 2) m fuel) ∧
    (0 ≤ prom → prom / 2 ≤ prom) := by
  refine ⟨?_, ?_, ?_⟩
  · rcases fepGo_characterize df col m 14 prom with hnone | ⟨k, hk, heq⟩
    · left; unfold find_extreme_peaks; rw [hnone]
    · right; exact ⟨k, hk, by unfold find_extreme_peaks; rw [heq]⟩
  · intro fuel h
    simp [fepGo, h]
  · intro h
    exact half_le_self h

/-- C6, witness: on the flat trace with the default initial prominence the
guard holds, so one loop step halves the prominence, and halving does not
increase it. -/
theorem find_extreme_peaks_bounded_halving_witness :
    fepGo dfFlat "Current" (1 / 10) 1 1 =
      fepGo dfFlat "Current" (1 / 10 / 2) 1 0 ∧
    (1 : ℚ) / 10 / 2 ≤ 1 / 10 :=
  ⟨(find_extreme_peaks_bounded_halving dfFlat "Current" (1 / 10) 1).2.1 0
      (by with_unfolding_all rfl),
   (find_extreme_peaks_bounded_halving dfFlat "Current" (1 / 10) 1).2.2
      (by norm_num)⟩

/-- C2, counterexample to the claim as stated: on the flat trace (Scenario
B) the halving loop does reach its 15-iteration cap — modeled by the inner
loop returning none, the bare raise at utils.py line 173 — but
find_extreme_peaks itself catches that exception, prints a message, and
returns the empty list to its caller.  The caller receives a default empty
set, not a NoExtremumFound error: no typed error exists in the code and
nothing is propagated. -/
theorem flat_trace_swallows_failure :
    fepGo dfFlat "Current" (1 / 10) 1 14 = none ∧
    find_extreme_peaks dfFlat "Current" (1 / 10) 1 = [] :=
  ⟨by with_unfolding_all rfl, by with_unfolding_all rfl⟩

/-- C2 (amended): whenever the halving loop exhausts its 15-iteration cap
without a qualifying extremum set, find_extreme_peaks catches its own
untyped exception and returns the empty list — the failure is swallowed
and an empty default is substituted instead of a typed NoExtremumFound
error reaching the caller. -/
theorem cap_exhaustion_returns_empty (df : Trace) (col : String)
    (prom : ℚ) (m : ℤ) (h : fepGo df col prom m 14 = none) :
    find_extreme_peaks df col prom m = [] := by
  unfold find_extreme_peaks
  rw [h]

/-- C2, witness: the amended theorem applied to a maxima search on the
flat trace, which exhausts the cap. -/
theorem cap_exhaustion_returns_empty_witness :
    find_extreme_peaks dfFlat "Current" (1 / 10) 0 = [] :=
  cap_exhaustion_returns_empty dfFlat "Current" (1 / 10) 0
    (by with_unfolding_all rfl)

/-- C10 (confirmed): filter_peak_by_prominence can never return a list of
exactly one index, so the kind-dependent singleton clause in the guard of
find_extreme_peaks is unreachable and the adaptive loop halts under
exactly the same condition — a non-empty filter result — for minima
search and maxima search alike: the loop equals the uniform-guard loop on
every input. -/
theorem halving_loop_kind_independent (df : Trace) (col : String)
    (prom : ℚ) (m : ℤ) :
    (∀ x : Nat, filter_peak_by_prominence df col prom m ≠ [x]) ∧
    find_extreme_peaks df col prom m =
      find_extreme_peaks_uniform df col prom m := by
  constructor
  · intro x hx
    have h := filter_length_ne_one df col prom m
    rw [hx] at h
    simp at h
  · unfold find_extreme_peaks find_extreme_peaks_uniform
    rw [fepGo_eq_uniform]

/-- C10, witness: the two loops agree on a concrete maxima search. -/
theorem halving_loop_kind_independent_witness :
    find_extreme_peaks dfDip "Current" (1 / 10) 0 =
      find_extreme_peaks_uniform dfDip "Current" (1 / 10) 0 :=
  (halving_loop_kind_independent dfDip "Current" (1 / 10) 0).2

/-- Loop state of most_relevant_minimum (utils.py lines 195-205): fold
over the minima carrying closest_index and smallest_diff; the initial
float infinity of smallest_diff is modeled by none, which every finite
difference beats, exactly as in the source. -/
def mrmGo (P : Nat → ℚ) (target : ℚ) :
    List Nat → Option Nat → Option ℚ → Option Nat
  | [], closest_index, _ => closest_index
  | idx :: rest, closest_index, smallest_diff =>
      let diff := |P idx - target|
      let better : Bool :=
        match smallest_diff with
        | none => true
        | some s => decide (diff < s)
      if better then mrmGo P target rest (some idx) (some diff)
      else mrmGo P target rest closest_index smallest_diff

/-- Embedding of most_relevant_minimum (utils.py lines 182-205).  The
potential_column parameter of the source is fixed to its default value
Potential, the only value any caller passes. -/
def most_relevant_minimum (df : Trace) (minima : List Nat)
    (target_value : ℚ) : Option Nat :=
  mrmGo (fun i => df.potAt i) target_value minima none none

/-- Embedding of the scan of find_nearest_maxima (utils.py lines
228-234): over the sorted maxima, remember the last index below
min_index; stop at the first index above it, recording it as the nearest
maximum after. -/
def fnmGo (min_index : Nat) :
    List Nat → Option Nat → Option Nat → Option Nat × Option Nat
  | [], max_before, max_after => (max_before, max_after)
  | x :: rest, max_before, max_after =>
      if x < min_index then fnmGo min_index rest (some x) max_after
      else if min_index < x then
        (max_before, if max_after.isNone then some x else max_after)
      else fnmGo min_index rest max_before max_after

/-- Embedding of find_nearest_maxima (utils.py lines 207-236).  The
Python list [max_before, max_after] is rendered as a pair; sorted is
rendered by insertion sort, which produces the same ascending
rearrangement. -/
def find_nearest_maxima (maxima : List Nat) (min_index : Nat) :
    Option Nat × Option Nat :=
  fnmGo min_index (List.insertionSort (· ≤ ·) maxima) none none

/-- Concrete 101-sample trace with potential linearly spaced from -1/2 to
1/2, the potential grid of Scenario A and Scenario C of the spec. -/
def dfScenarioC : Trace :=
  ⟨(List.range 101).map (fun j => ((j : ℚ) / 100 - 1 / 2, 0))⟩

/-- Helper: result of the most_relevant_minimum fold started from an
already chosen index — the fold keeps the first index whose difference is
minimal: every index before the winner has a strictly larger difference,
every index after it a larger-or-equal one. -/
theorem mrmGo_some_spec (P : Nat → ℚ) (t : ℚ) :
    ∀ (l : List Nat) (ci : Nat),
    ∃ r, mrmGo P t l (some ci) (some |P ci - t|) = some r ∧
      ((r = ci ∧ ∀ j ∈ l, |P ci - t| ≤ |P j - t|) ∨
        (∃ pre post, l = pre ++ r :: post ∧ |P r - t| < |P ci - t| ∧
          (∀ j ∈ pre, |P r - t| < |P j - t|) ∧
          (∀ j ∈ post, |P r - t| ≤ |P j - t|))) := by
  intro l
  induction l with
  | nil => intro ci; exact ⟨ci, rfl, Or.inl ⟨rfl, by simp⟩⟩
  | cons x rest ih =>
      intro ci
      by_cases hx : |P x - t| < |P ci - t|
      · obtain ⟨r, heq, hspec⟩ := ih x
        refine ⟨r, ?_, ?_⟩
        · rw [← heq]; simp [mrmGo, hx]
        · rcases hspec with ⟨hrx, hall⟩ | ⟨pre, post, hsplit, hlt, hpre, hpost⟩
          · subst hrx
            exact Or.inr ⟨[], rest, by simp, hx, by simp, hall⟩
          · refine Or.inr ⟨x :: pre, post, by simp [hsplit],
              lt_trans hlt hx, ?_, hpost⟩
            intro j hj
            rcases List.mem_cons.mp hj with rfl | hj
            · exact hlt
            · exact hpre j hj
      · obtain ⟨r, heq, hspec⟩ := ih ci
        refine ⟨r, ?_, ?_⟩
        · rw [← heq]; simp [mrmGo, hx]
        · rcases hspec with ⟨hrc, hall⟩ | ⟨pre, post, hsplit, hlt, hpre, hpost⟩
          · refine Or.inl ⟨hrc, ?_⟩
            intro j hj
            rcases List.mem_cons.mp hj with rfl | hj
            · exact le_of_not_lt hx
            · exact hall j hj
          · refine Or.inr ⟨x :: pre, post, by simp [hsplit], hlt, ?_, hpost⟩
            intro j hj
            rcases List.mem_cons.mp hj with rfl | hj
            · exact lt_of_lt_of_le hlt (le_of_not_lt hx)
            · exact hpre j hj

/-- C8 (confirmed): for every trace, non-empty minima index list and
target potential, most_relevant_minimum returns the minima index whose
potential value is nearest the target in absolute difference, and on ties
the first such index in traversal order: the list splits around the
returned index so that every earlier index has a strictly larger
difference and every later index a larger-or-equal one. -/
theorem most_relevant_minimum_spec (df : Trace) (minima : List Nat)
    (t : ℚ) (_hb : ∀ j ∈ minima, j < df.samples.length)
    (hne : minima ≠ []) :
    ∃ pre i post, most_relevant_minimum df minima t = some i ∧
      minima = pre ++ i :: post ∧
      (∀ j ∈ pre, |df.potAt i - t| < |df.potAt j - t|) ∧
      (∀ j ∈ post, |df.potAt i - t| ≤ |df.potAt j - t|) ∧
      (∀ j ∈ minima, |df.potAt i - t| ≤ |df.potAt j - t|) := by
  match minima, hne with
  | x :: rest, _ =>
    have hstep : most_relevant_minimum df (x :: rest) t =
        mrmGo (fun i => df.potAt i) t rest (some x)
          (some |df.potAt x - t|) := by
      simp [most_relevant_minimum, mrmGo]
    obtain ⟨r, heq, hspec⟩ := mrmGo_some_spec (fun i => df.potAt i) t rest x
    rcases hspec with ⟨hrx, hall⟩ | ⟨pre, post, hsplit, hlt, hpre, hpost⟩
    · subst hrx
      refine ⟨[], r, rest, hstep.trans heq, by simp, by simp, hall, ?_⟩
      intro j hj
      rcases List.mem_cons.mp hj with rfl | hj
      · exact le_refl _
      · exact hall j hj
    · refine ⟨x :: pre, r, post, hstep.trans heq, by simp [hsplit], ?_,
        hpost, ?_⟩
      · intro j hj
        rcases List.mem_cons.mp hj with rfl | hj
        · exact hlt
        · exact hpre j hj
      · intro j hj
        rcases List.mem_cons.mp hj with rfl | hj
        · exact le_of_lt hlt
        · rw [hsplit] at hj
          rcases List.mem_append.mp hj with hj | hj
          · exact le_of_lt (hpre j hj)
          · rcases List.mem_cons.mp hj with rfl | hj
            · exact le_refl _
            · exact hpost j hj

/-- C8, witness: Scenario C of the spec — on the 101-point grid, with
minima 10, 40 and 70 and the target equal to the potential of index 42,
the selected minimum is index 40. -/
theorem most_relevant_minimum_spec_witness :
    (∃ pre i post,
      most_relevant_minimum dfScenarioC [10, 40, 70] (-2 / 25) = some i ∧
      [10, 40, 70] = pre ++ i :: post ∧
      (∀ j ∈ pre, |dfScenarioC.potAt i - (-2 / 25)| <
        |dfScenarioC.potAt j - (-2 / 25)|) ∧
      (∀ j ∈ post, |dfScenarioC.potAt i - (-2 / 25)| ≤
        |dfScenarioC.potAt j - (-2 / 25)|) ∧
      (∀ j ∈ [10, 40, 70], |dfScenarioC.potAt i - (-2 / 25)| ≤
        |dfScenarioC.potAt j - (-2 / 25)|)) ∧
    most_relevant_minimum dfScenarioC [10, 40, 70] (-2 / 25) = some 40 ∧
    dfScenarioC.potAt 42 = -2 / 25 :=
  ⟨most_relevant_minimum_spec dfScenarioC [10, 40, 70] (-2 / 25)
      (by with_unfolding_all decide) (by simp),
   by with_unfolding_all rfl, by with_unfolding_all rfl⟩

/-- C9, counterexample to the claim as stated: with an empty minima list
most_relevant_minimum simply returns None — its initial closest_index —
rather than failing with a NoMinimumAvailable error; no such error exists
in the code. -/
theorem empty_minima_returns_none :
    most_relevant_minimum dfDip [] (-3 / 10) = none := rfl

/-- C9 (amended): for every trace and target potential, an empty minima
set makes most_relevant_minimum return the null default None; no typed
NoMinimumAvailable failure is raised. -/
theorem most_relevant_minimum_empty_none (df : Trace) (t : ℚ) :
    most_relevant_minimum df [] t = none := rfl

theorem getLast?_cons_ne {α : Type} (a : α) {l : List α} (h : l ≠ []) :
    (a :: l).getLast? = l.getLast? := by
  cases l with
  | nil => exact absurd rfl h
  | cons b t => rfl

theorem mem_of_getLast?_eq {l : List Nat} {b : Nat}
    (h : l.getLast? = some b) : b ∈ l := by
  induction l with
  | nil => simp at h
  | cons x t ih =>
      cases ht : t with
      | nil =>
          subst ht
          simp [List.getLast?] at h
          simp [h]
      | cons y s =>
          subst ht
          rw [getLast?_cons_ne x (by simp)] at h
          exact List.mem_cons_of_mem x (ih h)

theorem sorted_le_getLast {l : List Nat} (hs : List.Sorted (· ≤ ·) l)
    {b : Nat} (hb : l.getLast? = some b) : ∀ j ∈ l, j ≤ b := by
  induction l with
  | nil => simp
  | cons x t ih =>
      rcases List.sorted_cons.mp hs with ⟨hx, ht⟩
      cases htn : t with
      | nil =>
          subst htn
          simp [List.getLast?] at hb
          subst hb
          simp
      | cons y s =>
          subst htn
          rw [getLast?_cons_ne x (by simp)] at hb
          intro j hj
          rcases List.mem_cons.mp hj with rfl | hj
          · exact hx b (mem_of_getLast?_eq hb)
          · exact ih ht hb j hj

theorem sorted_head_le {l : List Nat} (hs : List.Sorted (· ≤ ·) l)
    {a : Nat} (ha : l.head? = some a) : ∀ j ∈ l, a ≤ j := by
  cases l with
  | nil => simp at ha
  | cons x t =>
      simp [List.head?] at ha
      subst ha
      rcases List.sorted_cons.mp hs with ⟨hx, _⟩
      intro j hj
      rcases List.mem_cons.mp hj with rfl | hj
      · exact le_refl _
      · exact hx j hj

theorem mem_of_head?_eq {l : List Nat} {a : Nat} (h : l.head? = some a) :
    a ∈ l := by
  cases l with
  | nil => simp at h
  | cons x t =>
      simp [List.head?] at h
      simp [h]

theorem exists_getLast?_of_ne_nil {l : List Nat} (h : l ≠ []) :
    ∃ b, l.getLast? = some b := by
  cases l with
  | nil => exact absurd rfl h
  | cons x t => exact ⟨_, rfl⟩

/-- Helper: closed form of the find_nearest_maxima scan on a sorted list —
the before slot ends as the last entry below min_index (keeping its start
value when there is none) and the after slot as the first entry above
min_index. -/
theorem fnmGo_closed (mi : Nat) :
    ∀ (l : List Nat), List.Sorted (· ≤ ·) l → ∀ (mb : Option Nat),
    fnmGo mi l mb none =
      ((l.filter (fun x => decide (x < mi))).getLast?.elim mb some,
       (l.filter (fun x => decide (mi < x))).head?) := by
  intro l
  induction l with
  | nil => intro _ mb; rfl
  | cons x t ih =>
      intro hs mb
      rcases List.sorted_cons.mp hs with ⟨hx, ht⟩
      by_cases h1 : x < mi
      · have hnotgt : ¬ mi < x := by omega
        rw [show fnmGo mi (x :: t) mb none = fnmGo mi t (some x) none from by
          simp [fnmGo, h1]]
        rw [ih ht (some x)]
        have hfl : (x :: t).filter (fun y => decide (y < mi)) =
            x :: t.filter (fun y => decide (y < mi)) := by
          simp [List.filter_cons, h1]
        have hfg : (x :: t).filter (fun y => decide (mi < y)) =
            t.filter (fun y => decide (mi < y)) := by
          simp [List.filter_cons, hnotgt]
        rw [hfl, hfg]
        cases hft : t.filter (fun y => decide (y < mi)) with
        | nil => simp [List.getLast?]
        | cons z zs =>
            rw [getLast?_cons_ne x (by simp)]
            cases hzl : (z :: zs).getLast? with
            | none => simp [List.getLast?] at hzl
            | some w => simp
      · by_cases h2 : mi < x
        · rw [show fnmGo mi (x :: t) mb none = (mb, some x) from by
            simp [fnmGo, h1, h2]]
          have hfl : (x :: t).filter (fun y => decide (y < mi)) = [] := by
            rw [List.filter_eq_nil_iff]
            intro a ha
            rcases List.mem_cons.mp ha with rfl | ha
            · simpa using h1
            · have := hx a ha
              simp
              omega
          have hfg : (x :: t).filter (fun y => decide (mi < y)) =
              x :: t.filter (fun y => decide (mi < y)) := by
            simp [List.filter_cons, h2]
          rw [hfl, hfg]
          rfl
        · have hxmi : x = mi := by omega
          rw [show fnmGo mi (x :: t) mb none = fnmGo mi t mb none from by
            simp [fnmGo, h1, h2]]
          rw [ih ht mb]
          have hfl : (x :: t).filter (fun y => decide (y < mi)) =
              t.filter (fun y => decide (y < mi)) := by
            simp [List.filter_cons, h1]
          have hfg : (x :: t).filter (fun y => decide (mi < y)) =
              t.filter (fun y => decide (mi < y)) := by
            simp [List.filter_cons, h2]
          rw [hfl, hfg]

/-- C7 (confirmed): find_nearest_maxima returns as before the greatest
maxima index strictly below the minimum index and as after the smallest
maxima index strictly above it, each slot null exactly when no such index
exists; when both are present the minimum index lies strictly between
them, and on Scenario D (maxima 5 and 55, minimum index 40) the result is
(before 5, after 55). -/
theorem find_nearest_maxima_spec (maxima : List Nat) (mi : Nat) :
    (∀ b, (find_nearest_maxima maxima mi).1 = some b →
      b ∈ maxima ∧ b < mi ∧ ∀ j ∈ maxima, j < mi → j ≤ b) ∧
    ((find_nearest_maxima maxima mi).1 = none → ∀ j ∈ maxima, ¬ j < mi) ∧
    (∀ a, (find_nearest_maxima maxima mi).2 = some a →
      a ∈ maxima ∧ mi < a ∧ ∀ j ∈ maxima, mi < j → a ≤ j) ∧
    ((find_nearest_maxima maxima mi).2 = none → ∀ j ∈ maxima, ¬ mi < j) ∧
    (∀ b a, (find_nearest_maxima maxima mi).1 = some b →
      (find_nearest_maxima maxima mi).2 = some a → b < mi ∧ mi < a) ∧
    find_nearest_maxima [5, 55] 40 = (some 5, some 55) := by
  have hs := List.sorted_insertionSort (· ≤ ·) maxima
  have hperm := List.perm_insertionSort (· ≤ ·) maxima
  have hcl : find_nearest_maxima maxima mi =
      (((List.insertionSort (· ≤ ·) maxima).filter
          (fun x => decide (x < mi))).getLast?.elim none some,
       ((List.insertionSort (· ≤ ·) maxima).filter
          (fun x => decide (mi < x))).head?) :=
    fnmGo_closed mi _ hs none
  set fl := (List.insertionSort (· ≤ ·) maxima).filter
    (fun x => decide (x < mi)) with hfl
  set fg := (List.insertionSort (· ≤ ·) maxima).filter
    (fun x => decide (mi < x)) with hfg
  have hsfl : List.Sorted (· ≤ ·) fl := List.Pairwise.filter _ hs
  have hsfg : List.Sorted (· ≤ ·) fg := List.Pairwise.filter _ hs
  have hmemfl : ∀ j, j ∈ maxima → j < mi → j ∈ fl := by
    intro j hj hlt
    rw [hfl]
    exact List.mem_filter.mpr ⟨hperm.mem_iff.mpr hj, by simpa using hlt⟩
  have hmemfg : ∀ j, j ∈ maxima → mi < j → j ∈ fg := by
    intro j hj hlt
    rw [hfg]
    exact List.mem_filter.mpr ⟨hperm.mem_iff.mpr hj, by simpa using hlt⟩
  have hofl : ∀ b, b ∈ fl → b ∈ maxima ∧ b < mi := by
    intro b hb
    rw [hfl] at hb
    rcases List.mem_filter.mp hb with ⟨hbl, hbd⟩
    exact ⟨hperm.mem_iff.mp hbl, by simpa using hbd⟩
  have hofg : ∀ a, a ∈ fg → a ∈ maxima ∧ mi < a := by
    intro a ha
    rw [hfg] at ha
    rcases List.mem_filter.mp ha with ⟨hal, had⟩
    exact ⟨hperm.mem_iff.mp hal, by simpa using had⟩
  have hfst : ∀ b, (find_nearest_maxima maxima mi).1 = some b →
      fl.getLast? = some b := by
    intro b hb
    rw [hcl] at hb
    cases hgl : fl.getLast? with
    | none => rw [hgl] at hb; simp at hb
    | some c =>
        rw [hgl] at hb
        simp at hb
        rw [hb]
  have hfstn : (find_nearest_maxima maxima mi).1 = none →
      fl.getLast? = none := by
    intro h
    rw [hcl] at h
    cases hgl : fl.getLast? with
    | none => rfl
    | some c => rw [hgl] at h; simp at h
  have main1 : ∀ b, (find_nearest_maxima maxima mi).1 = some b →
      b ∈ maxima ∧ b < mi ∧ ∀ j ∈ maxima, j < mi → j ≤ b := by
    intro b hb
    have hgl := hfst b hb
    have hbm := hofl b (mem_of_getLast?_eq hgl)
    refine ⟨hbm.1, hbm.2, ?_⟩
    intro j hj hjlt
    exact sorted_le_getLast hsfl hgl j (hmemfl j hj hjlt)
  have main3 : ∀ a, (find_nearest_maxima maxima mi).2 = some a →
      a ∈ maxima ∧ mi < a ∧ ∀ j ∈ maxima, mi < j → a ≤ j := by
    intro a ha
    have hhd : fg.head? = some a := by rw [hcl] at ha; exact ha
    have ham := hofg a (mem_of_head?_eq hhd)
    refine ⟨ham.1, ham.2, ?_⟩
    intro j hj hjlt
    exact sorted_head_le hsfg hhd j (hmemfg j hj hjlt)
  refine ⟨main1, ?_, main3, ?_, ?_, by with_unfolding_all rfl⟩
  · intro hnone j hj hjlt
    have hgl := hfstn hnone
    have hflnil : fl = [] := by
      cases hflc : fl with
      | nil => rfl
      | cons z zs =>
          obtain ⟨w, hw⟩ :=
            exists_getLast?_of_ne_nil (l := z :: zs) (by simp)
          rw [hflc, hw] at hgl
          exact absurd hgl (by simp)
    have := hmemfl j hj hjlt
    rw [hflnil] at this
    simp at this
  · intro hnone j hj hjlt
    have hhd : fg.head? = none := by rw [hcl] at hnone; exact hnone
    have hfgnil : fg = [] := by
      cases hfgc : fg with
      | nil => rfl
      | cons z zs =>
          rw [hfgc] at hhd
          simp at hhd
    have := hmemfg j hj hjlt
    rw [hfgnil] at this
    simp at this
  · intro b a hb ha
    exact ⟨(main1 b hb).2.1, (main3 a ha).2.1⟩

/-- C7, witness: the spec applied to Scenario D — before index 5 is in
the maxima set, lies below minimum index 40, and dominates every maxima
index below 40. -/
theorem find_nearest_maxima_spec_witness :
    5 ∈ [5, 55] ∧ 5 < 40 ∧ ∀ j ∈ [5, 55], j < 40 → j ≤ 5 :=
  (find_nearest_maxima_spec [5, 55] 40).1 5 (by with_unfolding_all rfl)
